import Mathlib

/- Shallow embedding of the meteor-profiler sources (src/lib/index.js,
src/lib/timer.js, src/src/timer.js).

JavaScript numbers are modeled as exact rationals; NaN, and an undefined
property read that is immediately used in arithmetic or in a comparison, are
both modeled as `none` in `JNum := Option Rat`.  A JS object used as a map
from JSON-stringified arrays of strings to numbers is modeled as an
insertion-ordered association list keyed by the array itself, which is
faithful because JSON.stringify is injective on arrays of strings and JS
objects preserve insertion order of string keys. -/

namespace Meteor

/-- A call path: the ordered list of bucket names from the profiling root to
the current bucket (the keys of lib/index.js are JSON.stringify of these). -/
abbrev Path := List String

/-- A JavaScript number that may be NaN (or an undefined read used in
arithmetic): `none` stands for NaN/undefined. -/
abbrev JNum := Option Rat

/-- JS addition: NaN propagates. -/
def jadd : JNum → JNum → JNum
  | some a, some b => some (a + b)
  | _, _ => none

/-- JS subtraction: NaN propagates. -/
def jsub : JNum → JNum → JNum
  | some a, some b => some (a - b)
  | _, _ => none

/-- JS comparison with a real number on the right: false when the left side
is NaN or undefined. -/
def jltR : JNum → Rat → Bool
  | some a, f => decide (a < f)
  | none, _ => false

/-- JS greater-than between two values: false when either side is NaN. -/
def jgt : JNum → JNum → Bool
  | some a, some b => decide (b < a)
  | _, _ => false

/-- JS `x || 0`: undefined and NaN are falsy, so both become 0. -/
def jOrZero : JNum → Rat
  | some a => a
  | none => 0

/-- The accumulation table `bucketTimes` (and the derived copy
`bucketTimesAndOther`): an insertion-ordered map from path to milliseconds. -/
abbrev Table := List (Path × JNum)

/-- Property read `table[key]`: undefined when absent. -/
def tget : Table → Path → JNum
  | [], _ => none
  | kv :: rest, p => if kv.1 = p then kv.2 else tget rest p

/-- Property write `table[key] = v`: updates in place when the key exists,
otherwise appends (JS string-key insertion order). -/
def tset : Table → Path → JNum → Table
  | [], p, v => [(p, v)]
  | kv :: rest, p, v => if kv.1 = p then (p, v) :: rest else kv :: tset rest p v

/-- `bucketTimes[key] = (bucketTimes[key] || 0) + durationMs`
(lib/index.js lines 267 to 268). -/
def tIncrease : Table → Path → Rat → Table
  | [], p, ms => [(p, some (0 + ms))]
  | kv :: rest, p, ms =>
    if kv.1 = p then (p, some (jOrZero kv.2 + ms)) :: rest
    else kv :: tIncrease rest p ms

/-- `increase(entry, durationMs)` (lib/index.js lines 258 to 269); the source
wraps a non-array entry into a one-element array, so the model takes a path.
When profiling is disabled it is a no-op. -/
def increase (enabled : Bool) (t : Table) (entry : Path) (durationMs : Rat) : Table :=
  if enabled then tIncrease t entry durationMs else t

/-- The keys of a table, in insertion order (`_.keys(bucketTimes)` followed by
JSON.parse, lib/index.js line 389). -/
def keysOf (t : Table) : List Path := t.map (fun kv => kv.1)

/-- `_.last(entry)`; on the empty array JS concatenates the undefined value
into the string "undefined", which is the only use made of it. -/
def entryNameStr (entry : Path) : String := (entry.getLast?).getD "undefined"

/-- `isTopLevelEntry` (lib/index.js lines 283 to 285). -/
def isTopLevelEntry (entry : Path) : Bool := entry.length == 1

/-- `topLevelEntries` (lib/index.js lines 287 to 289). -/
def topLevelEntries (es : List Path) : List Path := es.filter isTopLevelEntry

/-- `isChild(entry1, entry2)` (lib/index.js lines 300 to 302). -/
def isChild (entry1 entry2 : Path) : Bool :=
  entry2.length == entry1.length + 1 && entry1 == entry2.take entry1.length

/-- `children(entry1)` (lib/index.js lines 304 to 308). -/
def childrenOf (es : List Path) (entry1 : Path) : List Path :=
  es.filter (fun entry2 => isChild entry1 entry2)

/-- `hasChildren(entry)` (lib/index.js lines 310 to 312). -/
def hasChildren (es : List Path) (entry : Path) : Bool :=
  (childrenOf es entry).length != 0

/-- `isLeaf(entry)` (lib/index.js lines 314 to 316). -/
def isLeaf (es : List Path) (entry : Path) : Bool := !hasChildren es entry

/-- The module-level mutable report state of lib/index.js: `bucketTimes`,
`bucketTimesAndOther` and `entries`. -/
structure ReportState where
  bucketTimes : Table
  bucketTimesAndOther : Table
  entries : List Path
  deriving DecidableEq

/-- The accumulation loop inside `otherTime` (lib/index.js lines 324 to 327):
sums `bucketTimes[child]` over the children of the entry. -/
def childTotal (bt : Table) (es : List Path) (entry : Path) : JNum :=
  (childrenOf es entry).foldl (fun total child => jadd total (tget bt child)) (some 0)

/-- `otherTime(entry)` (lib/index.js lines 323 to 329): the parent time is
read from the derived table, the children sum from the raw `bucketTimes`. -/
def otherTime (st : ReportState) (entry : Path) : JNum :=
  jsub (tget st.bucketTimesAndOther entry) (childTotal st.bucketTimes st.entries entry)

/-- The key of the injected synthetic child of a parent entry. -/
def otherPath (entry : Path) : Path := entry ++ ["other " ++ entryNameStr entry]

/-- `injectOtherTime(entry)` (lib/index.js lines 331 to 337): the value is
computed against the entries list before the new entry is pushed. -/
def injectOtherTime (st : ReportState) (entry : Path) : ReportState :=
  { st with
    bucketTimesAndOther := tset st.bucketTimesAndOther (otherPath entry) (otherTime st entry),
    entries := st.entries ++ [otherPath entry] }

/-- `setupReport()` (lib/index.js lines 388 to 394): rebuilds `entries` from
the keys of `bucketTimes`, copies `bucketTimes` into `bucketTimesAndOther`,
then injects an other-entry for every parent among the original entries. -/
def setupReport (st : ReportState) : ReportState :=
  let entries0 := keysOf st.bucketTimes
  let init : ReportState :=
    { bucketTimes := st.bucketTimes, bucketTimesAndOther := st.bucketTimes, entries := entries0 }
  (entries0.filter (fun e => hasChildren entries0 e)).foldl injectOtherTime init

/-- One printed report line: the blank line printed by print(0, ""), an entry
line of the hierarchical view (its text is last-of-entry, a colon and the
time), a leaf-total line, or the final "Measured CPU" grand total line. -/
inductive OutLine where
  | blank : OutLine
  | entryLine (level : Nat) (entry : Path) (time : JNum) : OutLine
  | totalLine (name : String) (time : JNum) : OutLine
  | grandTotalLine (time : JNum) : OutLine
  deriving DecidableEq

/-- Length of the longest stored path. -/
def maxLen (es : List Path) : Nat := (es.map List.length).foldr max 0

/-- `reportOnLeaf` (lib/index.js lines 318 to 321). -/
def reportOnLeaf (fl : Rat) (tA : Table) (level : Nat) (entry : Path) : List OutLine :=
  if jltR (tget tA entry) fl then [] else [.entryLine level entry (tget tA entry)]

/-- `reportOn` and `reportOnParent` (lib/index.js lines 339 to 349), with an
explicit recursion fuel.  Each recursive step moves to a child, which is one
element longer and a member of the fixed entries list, so with fuel larger
than the longest stored path the zero-fuel branch is unreachable; the lemma
reportOnAux_fuel_irrel proves the result does not depend on the fuel once it
is large enough. -/
def reportOnAux (fl : Rat) (tA : Table) (es : List Path) : Nat → Nat → Path → List OutLine
  | 0, _, _ => []
  | fuel + 1, level, entry =>
    if hasChildren es entry then
      if jltR (tget tA entry) fl then []
      else
        .entryLine level entry (tget tA entry) ::
          ((childrenOf es entry).map (fun child => reportOnAux fl tA es fuel (level + 1) child)).flatten
    else reportOnLeaf fl tA level entry

/-- `reportOn(level, entry)` with sufficient fuel. -/
def reportOn (fl : Rat) (tA : Table) (es : List Path) (level : Nat) (entry : Path) : List OutLine :=
  reportOnAux fl tA es (maxLen es + 1) level entry

/-- `reportHierarchy()` (lib/index.js lines 351 to 355). -/
def reportHierarchy (fl : Rat) (tA : Table) (es : List Path) : List OutLine :=
  ((topLevelEntries es).map (fun entry => reportOn fl tA es 0 entry)).flatten

/-- Underscore uniq keeping the first occurrence; `_.union` applied to a
single array (lib/index.js line 358) is exactly uniq. -/
def uniqFirstAux : List String → List String → List String
  | _, [] => []
  | seen, x :: xs => if x ∈ seen then uniqFirstAux seen xs else x :: uniqFirstAux (x :: seen) xs

/-- Deduplicate keeping first occurrences. -/
def uniqFirst (l : List String) : List String := uniqFirstAux [] l

/-- `allLeafs()` (lib/index.js lines 357 to 359). -/
def allLeafs (es : List Path) : List String :=
  uniqFirst ((es.filter (fun e => isLeaf es e)).map entryNameStr)

/-- `leafTotal(leafName)` (lib/index.js lines 361 to 369). -/
def leafTotal (tA : Table) (es : List Path) (leafName : String) : JNum :=
  (es.filter (fun e => isLeaf es e && entryNameStr e == leafName)).foldl
    (fun total leaf => jadd total (tget tA leaf)) (some 0)

/-- Insert into a list sorted by the comparator (keep x before y when le x y). -/
def insertLE (le : α → α → Bool) (x : α) : List α → List α
  | [] => [x]
  | y :: ys => if le x y then x :: y :: ys else y :: insertLE le x ys

/-- Comparator-driven insertion sort, standing in for the engine sort called
by totals.sort: JS Array.sort may reorder in any comparator-consistent way,
and every downstream use is invariant under permutations of ties. -/
def sortByLE (le : α → α → Bool) : List α → List α
  | [] => []
  | x :: xs => insertLE le x (sortByLE le xs)

/-- The comparator passed to totals.sort (lib/index.js lines 376 to 378): a
stays before b when the times are equal or the time of a is larger, which
orders the totals by descending time. -/
def totalsSort (ts : List (String × JNum)) : List (String × JNum) :=
  sortByLE (fun a b => a.2 == b.2 || jgt a.2 b.2) ts

/-- The print-and-accumulate loop of `reportTotals` (lib/index.js lines 379
to 384): skips totals under the filter, otherwise prints the line and adds
the time to the grand total. -/
def totalsFold (fl : Rat) (ts : List (String × JNum)) : List OutLine × JNum :=
  ts.foldl
    (fun acc t =>
      if jltR t.2 fl then acc
      else (acc.1 ++ [.totalLine t.1 t.2], jadd acc.2 t.2))
    ([], some 0)

/-- `reportTotals()` (lib/index.js lines 371 to 386). -/
def reportTotals (fl : Rat) (tA : Table) (es : List Path) : List OutLine :=
  let ts := totalsSort ((allLeafs es).map (fun leaf => (leaf, leafTotal tA es leaf)))
  (totalsFold fl ts).1 ++ [.grandTotalLine (totalsFold fl ts).2]

/-- The grand total printed as "Measured CPU". -/
def grandTotal (fl : Rat) (tA : Table) (es : List Path) : JNum :=
  (totalsFold fl (totalsSort ((allLeafs es).map (fun leaf => (leaf, leafTotal tA es leaf))))).2

/-- The profiling session flags and table (lib/index.js lines 170, 173, 189). -/
structure Session where
  enabled : Bool
  running : Bool
  bucketTimes : Table
  deriving DecidableEq

/-- `start()` (lib/index.js lines 191 to 199). -/
def start (s : Session) : Except String Session :=
  if s.running then .error "Already running"
  else .ok { s with bucketTimes := [], running := true }

/-- `reportWithoutStopping()` (lib/index.js lines 402 to 408): the stream of
printed lines. -/
def reportWithoutStopping (fl : Rat) (bt : Table) : List OutLine :=
  let st := setupReport { bucketTimes := bt, bucketTimesAndOther := [], entries := [] }
  .blank :: reportHierarchy fl st.bucketTimesAndOther st.entries
    ++ .blank :: reportTotals fl st.bucketTimesAndOther st.entries

/-- `report()` (lib/index.js lines 396 to 400): it never raises; when
disabled it returns without touching the running flag, otherwise it clears
the running flag and prints. -/
def report (fl : Rat) (s : Session) : Except String (Session × List OutLine) :=
  if s.enabled = false then .ok (s, [])
  else .ok ({ s with running := false }, reportWithoutStopping fl s.bucketTimes)

/-- `stop()` (lib/index.js lines 419 to 430): raises "not running" from
Idle, otherwise captures the report lines into the buffer and returns them. -/
def stop (fl : Rat) (s : Session) : Except String (Session × List OutLine) :=
  if s.running = false then .error "not running"
  else
    match report fl s with
    | .ok (s1, lines) => .ok ({ s1 with running := false }, lines)
    | .error e => .error e

/-- Per logical thread state seen by a wrapped call: the CPU clock in seconds
(getrusage.getcputime), the active call path (profilerEntry or globalEntry),
the active timer stack (Fiber.current.timers; a timer is identified by its
snapshot path and its start reading, standing in for object identity in this
sequential model), the running flag and the accumulation table. -/
structure PState where
  running : Bool
  clock : Rat
  stack : List String
  timers : List (Path × Rat)
  bucketTimes : Table
  deriving DecidableEq

/-- The bucket argument of Profile: a literal string or a function of the
call arguments (the `_.isFunction(bucketName)` test, lib/index.js line 212). -/
inductive BucketName (α : Type) where
  | fixed (name : String)
  | derived (f : α → String)

/-- Resolve the bucket name, invoking the naming function on the call
arguments when it is one. -/
def resolveName : BucketName α → α → String
  | .fixed n, _ => n
  | .derived g, a => g a

/-- A profiled function: receives its arguments (receiver included) and the
thread state, and returns the new state together with a result or a thrown
error. -/
abbrev JSFun (α β : Type) := α → PState → PState × Except String β

/-- The body of the wrapper returned by Profile when enabled (lib/index.js
lines 204 to 251): the not-running early return, the push of the bucket name,
the snapshot of the path, the timer push and start, the wrapped call, and the
finally block: the timer stop feeds increase with the snapshot path, the
timer pop checks identity (a failed check is console.trace plus
process.exit(1), modeled as an error result that skips the path pop exactly
as a dying process would), then the path pop.  A fresh timer is started and
stopped exactly once here, so its own running-flag guards cannot fire and are
inlined away. -/
def profileCall (name : String) (body : PState → PState × Except String β) (s : PState) :
    PState × Except String β :=
  if s.running = false then body s
  else
    let stack1 := s.stack ++ [name]
    let snapshot := stack1
    let startClock := s.clock
    let s2 : PState := { s with stack := stack1, timers := s.timers ++ [(snapshot, startClock)] }
    let r := body s2
    let s3 := r.1
    let durationMs := 1000 * (s3.clock - startClock)
    let s4 : PState := { s3 with bucketTimes := increase true s3.bucketTimes snapshot durationMs }
    match s4.timers.getLast? with
    | none => (s4, .error "unexpected timer at top of stack")
    | some popped =>
      let s5 : PState := { s4 with timers := s4.timers.dropLast }
      if popped = (snapshot, startClock) then ({ s5 with stack := s5.stack.dropLast }, r.2)
      else (s5, .error "unexpected timer at top of stack")

/-- `Profile(bucketName, f)` (lib/index.js lines 201 to 252): when profiling
is disabled it returns the original function itself. -/
def Profile (enabled : Bool) (bucketName : BucketName α) (f : JSFun α β) : JSFun α β :=
  if enabled then fun a s => profileCall (resolveName bucketName a) (f a) s
  else f

/-- Abstract profiled computations for reasoning about nested wrapped calls:
burn CPU time and succeed, burn CPU time and throw, sequence two
computations, or make a nested wrapped call. -/
inductive Comp where
  | work (dt : Rat) : Comp
  | fail (dt : Rat) : Comp
  | seq (a b : Comp) : Comp
  | call (name : String) (body : Comp) : Comp

/-- Execute a computation; nested wrapped calls go through profileCall when
profiling is enabled, and are the original body when disabled (a disabled
Profile returned the original function). -/
def exec (enabled : Bool) : Comp → PState → PState × Except String Unit
  | .work dt, s => ({ s with clock := s.clock + dt }, .ok ())
  | .fail dt, s => ({ s with clock := s.clock + dt }, .error "wrapped function threw")
  | .seq a b, s =>
    match exec enabled a s with
    | (s1, .ok _) => exec enabled b s1
    | (s1, .error e) => (s1, .error e)
  | .call n body, s =>
    if enabled then profileCall n (fun s0 => exec enabled body s0) s
    else exec enabled body s

/-- The Timer of lib/timer.js and src/timer.js (the callback variants): the
type σ is the state the onStopped callback acts on.  The lib variant reports
a double start or stop by console.trace plus process.exit(1) and the src
variant throws; both fail loudly, modeled as an error result, never a silent
continue.  The duration handed to the callback is NaN when the start reading
is absent, matching JS arithmetic on a deleted property. -/
structure Timer (σ : Type) where
  id : String
  running : Bool
  startCPUTimeSecs : Option Rat
  totalMs : Rat
  onStopped : JNum → σ → σ

/-- Timer start (lib/timer.js lines 30 to 38, src/timer.js lines 18 to 29). -/
def Timer.start (now : Rat) (t : Timer σ) : Except String (Timer σ) :=
  if t.running then .error ("can't start a running timer: " ++ t.id)
  else .ok { t with startCPUTimeSecs := some now, running := true }

/-- Timer stop (lib/timer.js lines 40 to 52, src/timer.js lines 31 to 45):
computes the elapsed duration in milliseconds, invokes the completion
callback synchronously with it, deletes the start reading and clears the
running flag. -/
def Timer.stop (now : Rat) (t : Timer σ) (ext : σ) : Except String (Timer σ × σ) :=
  if t.running = false then .error ("can't stop a stopped timer: " ++ t.id)
  else
    let durationMs : JNum := t.startCPUTimeSecs.map (fun s0 => 1000 * (now - s0))
    .ok ({ t with startCPUTimeSecs := none, running := false }, t.onStopped durationMs ext)

/-! Basic lemmas about the table operations. -/

theorem tget_tset_self (t : Table) (p : Path) (v : JNum) : tget (tset t p v) p = v := by
  induction t with
  | nil => simp [tset, tget]
  | cons kv rest ih =>
    by_cases h : kv.1 = p
    · simp [tset, tget, h]
    · simp [tset, tget, h, ih]

theorem tget_tset_ne (t : Table) (p q : Path) (v : JNum) (h : q ≠ p) :
    tget (tset t p v) q = tget t q := by
  induction t with
  | nil =>
    show (if p = q then v else none) = none
    rw [if_neg (fun hh => h hh.symm)]
  | cons kv rest ih =>
    by_cases hk : kv.1 = p
    · subst hk
      have hne : kv.1 ≠ q := fun hh => h hh.symm
      simp [tset, tget, hne]
    · simp [tset, tget, hk, ih]

theorem tget_isSome_of_mem (t : Table) (p : Path)
    (hsome : ∀ kv ∈ t, kv.2.isSome = true) (hp : p ∈ keysOf t) :
    (tget t p).isSome = true := by
  induction t with
  | nil => simp [keysOf] at hp
  | cons kv rest ih =>
    by_cases h : kv.1 = p
    · simpa [tget, h] using hsome kv (by simp)
    · have hp' : p ∈ keysOf rest := by
        rcases (by simpa [keysOf] using hp) with h1 | h1
        · exact absurd h1.symm h
        · simpa [keysOf] using h1
      have := ih (fun kv hk => hsome kv (by simp [hk])) hp'
      simpa [tget, h] using this

/-! Lemmas about children and the injected other key. -/

theorem isChild_otherPath (P Q : Path) : isChild P (otherPath Q) = true ↔ P = Q := by
  simp only [isChild, otherPath, Bool.and_eq_true, beq_iff_eq, List.length_append,
    List.length_cons, List.length_nil]
  constructor
  · rintro ⟨h1, h2⟩
    have hlen : P.length = Q.length := by omega
    rw [hlen] at h2
    simpa [List.take_left] using h2
  · rintro rfl
    exact ⟨rfl, by simp [List.take_left]⟩

theorem otherPath_inj {P Q : Path} (h : otherPath P = otherPath Q) : P = Q := by
  have hlen : P.length = Q.length := by
    have := congrArg List.length h
    simp [otherPath] at this
    omega
  exact (List.append_inj h (by simpa using hlen)).1

theorem childrenOf_append (l1 l2 : List Path) (e : Path) :
    childrenOf (l1 ++ l2) e = childrenOf l1 e ++ childrenOf l2 e := by
  simp [childrenOf, List.filter_append]

theorem hasChildren_iff (es : List Path) (e : Path) :
    hasChildren es e = true ↔ childrenOf es e ≠ [] := by
  simp [hasChildren]

theorem childrenOf_map_otherPath_eq_nil (done : List Path) (Q : Path) (hQ : Q ∉ done) :
    childrenOf (done.map otherPath) Q = [] := by
  simp only [childrenOf, List.filter_eq_nil_iff]
  intro e he
  rcases List.mem_map.1 he with ⟨R, hR, rfl⟩
  intro hchild
  exact hQ (((isChild_otherPath Q R).1 hchild) ▸ hR)

/-! The characterization of setupReport. -/

theorem foldl_inject_bucketTimes (ps : List Path) (st : ReportState) :
    (ps.foldl injectOtherTime st).bucketTimes = st.bucketTimes := by
  induction ps generalizing st with
  | nil => rfl
  | cons Q ps ih => simpa [injectOtherTime] using ih (injectOtherTime st Q)

theorem inject_fold_spec (bt : Table)
    (hnd : (keysOf bt).Nodup)
    (hfresh : ∀ Q ∈ keysOf bt, hasChildren (keysOf bt) Q = true → otherPath Q ∉ keysOf bt) :
    ∀ (ps done : List Path) (tA : Table),
    (keysOf bt).filter (fun e => hasChildren (keysOf bt) e) = done ++ ps →
    (∀ p ∈ keysOf bt, tget tA p = tget bt p) →
    (∀ Q ∈ done, tget tA (otherPath Q) = jsub (tget bt Q) (childTotal bt (keysOf bt) Q)) →
    (ps.foldl injectOtherTime ⟨bt, tA, keysOf bt ++ done.map otherPath⟩).entries
        = keysOf bt ++ ((keysOf bt).filter (fun e => hasChildren (keysOf bt) e)).map otherPath ∧
    (∀ p ∈ keysOf bt,
      tget (ps.foldl injectOtherTime ⟨bt, tA, keysOf bt ++ done.map otherPath⟩).bucketTimesAndOther p
        = tget bt p) ∧
    (∀ Q ∈ (keysOf bt).filter (fun e => hasChildren (keysOf bt) e),
      tget (ps.foldl injectOtherTime ⟨bt, tA, keysOf bt ++ done.map otherPath⟩).bucketTimesAndOther
          (otherPath Q)
        = jsub (tget bt Q) (childTotal bt (keysOf bt) Q)) := by
  intro ps
  induction ps with
  | nil =>
    intro done tA hsplit hpres hdone
    refine ⟨by simp [hsplit], fun p hp => hpres p hp, fun Q hQ => ?_⟩
    rw [hsplit, List.append_nil] at *
    exact hdone Q (by rw [← hsplit] at hQ; simpa [hsplit] using hQ)
  | cons Q ps ih =>
    intro done tA hsplit hpres hdone
    have hparentsNd : ((keysOf bt).filter (fun e => hasChildren (keysOf bt) e)).Nodup :=
      hnd.filter _
    have hQparent : Q ∈ (keysOf bt).filter (fun e => hasChildren (keysOf bt) e) := by
      rw [hsplit]; exact List.mem_append_right _ (List.mem_cons_self _ _)
    have hQmem : Q ∈ keysOf bt := (List.mem_filter.1 hQparent).1
    have hQhas : hasChildren (keysOf bt) Q = true := by
      simpa using (List.mem_filter.1 hQparent).2
    have hQnotdone : Q ∉ done := by
      intro hc
      have := hsplit ▸ hparentsNd
      rcases List.nodup_append.1 this with ⟨_, _, hdisj⟩
      exact hdisj hc (List.mem_cons_self _ _)
    -- the state on which injectOtherTime acts
    set st0 : ReportState := ⟨bt, tA, keysOf bt ++ done.map otherPath⟩ with hst0
    have hchildren_eq : childrenOf st0.entries Q = childrenOf (keysOf bt) Q := by
      rw [hst0]
      show childrenOf (keysOf bt ++ done.map otherPath) Q = _
      rw [childrenOf_append, childrenOf_map_otherPath_eq_nil done Q hQnotdone, List.append_nil]
    have hvalue : otherTime st0 Q = jsub (tget bt Q) (childTotal bt (keysOf bt) Q) := by
      simp only [otherTime, childTotal, hchildren_eq, hst0]
      rw [hpres Q hQmem]
    have hinject : injectOtherTime st0 Q
        = ⟨bt, tset tA (otherPath Q) (jsub (tget bt Q) (childTotal bt (keysOf bt) Q)),
            keysOf bt ++ (done ++ [Q]).map otherPath⟩ := by
      simp only [injectOtherTime, hvalue, hst0, List.map_append, List.map_cons, List.map_nil,
        List.append_assoc]
    have hfreshQ : otherPath Q ∉ keysOf bt := hfresh Q hQmem hQhas
    have hpres' : ∀ p ∈ keysOf bt,
        tget (tset tA (otherPath Q) (jsub (tget bt Q) (childTotal bt (keysOf bt) Q))) p
          = tget bt p := by
      intro p hp
      have hne : p ≠ otherPath Q := by
        intro hc
        exact hfreshQ (hc ▸ hp)
      rw [tget_tset_ne _ _ _ _ hne]
      exact hpres p hp
    have hdone' : ∀ R ∈ done ++ [Q],
        tget (tset tA (otherPath Q) (jsub (tget bt Q) (childTotal bt (keysOf bt) Q)))
            (otherPath R)
          = jsub (tget bt R) (childTotal bt (keysOf bt) R) := by
      intro R hR
      rcases List.mem_append.1 hR with hR | hR
      · have hne : otherPath R ≠ otherPath Q := by
          intro hc
          exact hQnotdone ((otherPath_inj hc) ▸ hR)
        rw [tget_tset_ne _ _ _ _ hne]
        exact hdone R hR
      · have : R = Q := by simpa using hR
        subst this
        exact tget_tset_self _ _ _
    have := ih (done ++ [Q])
      (tset tA (otherPath Q) (jsub (tget bt Q) (childTotal bt (keysOf bt) Q)))
      (by rw [hsplit, List.append_assoc]; rfl) hpres' hdone'
    simpa [List.foldl_cons, hinject] using this

/-- The full characterization of setupReport: the raw table is untouched, the
entries are the original keys followed by one injected other-entry per
parent, original values are preserved in the derived table, and each injected
key holds exactly the parent time minus the sum of its original children. -/
theorem setupReport_spec (st : ReportState)
    (hnd : (keysOf st.bucketTimes).Nodup)
    (hfresh : ∀ Q ∈ keysOf st.bucketTimes,
      hasChildren (keysOf st.bucketTimes) Q = true → otherPath Q ∉ keysOf st.bucketTimes) :
    (setupReport st).bucketTimes = st.bucketTimes ∧
    (setupReport st).entries
      = keysOf st.bucketTimes
        ++ ((keysOf st.bucketTimes).filter
              (fun e => hasChildren (keysOf st.bucketTimes) e)).map otherPath ∧
    (∀ p ∈ keysOf st.bucketTimes,
      tget (setupReport st).bucketTimesAndOther p = tget st.bucketTimes p) ∧
    (∀ Q ∈ (keysOf st.bucketTimes).filter
        (fun e => hasChildren (keysOf st.bucketTimes) e),
      tget (setupReport st).bucketTimesAndOther (otherPath Q)
        = jsub (tget st.bucketTimes Q)
            (childTotal st.bucketTimes (keysOf st.bucketTimes) Q)) := by
  have h := inject_fold_spec st.bucketTimes hnd hfresh
    ((keysOf st.bucketTimes).filter (fun e => hasChildren (keysOf st.bucketTimes) e)) []
    st.bucketTimes (by simp) (fun p _ => rfl) (by simp)
  refine ⟨foldl_inject_bucketTimes _ _, ?_, ?_, ?_⟩
  · simpa [setupReport] using h.1
  · simpa [setupReport] using h.2.1
  · simpa [setupReport] using h.2.2

theorem setupReport_bucketTimes (st : ReportState) :
    (setupReport st).bucketTimes = st.bucketTimes := by
  unfold setupReport
  exact foldl_inject_bucketTimes _ _

theorem setupReport_depends_only_on_bucketTimes (st1 st2 : ReportState)
    (h : st1.bucketTimes = st2.bucketTimes) : setupReport st1 = setupReport st2 := by
  unfold setupReport
  rw [h]

theorem jsum_foldl_isSome (l : List Path) (g : Path → JNum)
    (hg : ∀ x ∈ l, (g x).isSome = true) (init : Rat) :
    ∃ r : Rat, l.foldl (fun acc x => jadd acc (g x)) (some init) = some r := by
  induction l generalizing init with
  | nil => exact ⟨init, rfl⟩
  | cons x xs ih =>
    obtain ⟨v, hv⟩ := Option.isSome_iff_exists.1 (hg x (by simp))
    simp only [List.foldl_cons, hv, jadd]
    exact ih (fun y hy => hg y (by simp [hy])) _

theorem childTotal_isSome (bt : Table) (entry : Path)
    (hsome : ∀ kv ∈ bt, kv.2.isSome = true) :
    ∃ r : Rat, childTotal bt (keysOf bt) entry = some r := by
  refine jsum_foldl_isSome _ _ (fun c hc => ?_) 0
  have hc' : c ∈ keysOf bt := List.mem_of_mem_filter hc
  exact tget_isSome_of_mem bt c hsome hc'

theorem jadd_jsub_cancel (a b : Rat) : jadd (some b) (jsub (some a) (some b)) = some a := by
  simp only [jadd, jsub]
  congr 1
  ring

/-- Claim C1: after setupReport, every parent path P among the stored keys
gets a synthetic child path otherPath P inserted into the entries, whose
stored value in the derived table is exactly accumulated(P) minus the sum of
the accumulated values of the original children of P (stored as computed, in
particular not clamped at zero), so that the children sum plus the injected
other value equals accumulated(P) exactly. -/
theorem claim1_accounting_law (st : ReportState) (P : Path)
    (hnd : (keysOf st.bucketTimes).Nodup)
    (hsome : ∀ kv ∈ st.bucketTimes, kv.2.isSome = true)
    (hfresh : ∀ Q ∈ keysOf st.bucketTimes,
      hasChildren (keysOf st.bucketTimes) Q = true → otherPath Q ∉ keysOf st.bucketTimes)
    (hP : P ∈ keysOf st.bucketTimes)
    (hchild : hasChildren (keysOf st.bucketTimes) P = true) :
    otherPath P ∈ (setupReport st).entries
    ∧ tget (setupReport st).bucketTimesAndOther (otherPath P)
        = jsub (tget st.bucketTimes P)
            (childTotal st.bucketTimes (keysOf st.bucketTimes) P)
    ∧ jadd (childTotal st.bucketTimes (keysOf st.bucketTimes) P)
        (tget (setupReport st).bucketTimesAndOther (otherPath P))
      = tget st.bucketTimes P := by
  obtain ⟨hbt, hes, hpres, hother⟩ := setupReport_spec st hnd hfresh
  have hPf : P ∈ (keysOf st.bucketTimes).filter
      (fun e => hasChildren (keysOf st.bucketTimes) e) :=
    List.mem_filter.2 ⟨hP, by simpa using hchild⟩
  refine ⟨?_, hother P hPf, ?_⟩
  · rw [hes]
    exact List.mem_append_right _ (List.mem_map_of_mem _ hPf)
  · rw [hother P hPf]
    obtain ⟨a, ha⟩ :=
      Option.isSome_iff_exists.1 (tget_isSome_of_mem st.bucketTimes P hsome hP)
    obtain ⟨b, hb⟩ := childTotal_isSome st.bucketTimes P hsome
    rw [ha, hb]
    exact jadd_jsub_cancel a b

/-- Witness for claim C1 on a concrete table where the injected other value
is negative, demonstrating that it is stored as computed, not clamped. -/
theorem claim1_witness :
    ((keysOf [(["A"], some 5), (["A", "B"], some 50)]).Nodup
      ∧ (∀ kv ∈ [(["A"], (some 5 : JNum)), (["A", "B"], some 50)], kv.2.isSome = true)
      ∧ (∀ Q ∈ keysOf [(["A"], (some 5 : JNum)), (["A", "B"], some 50)],
          hasChildren (keysOf [(["A"], (some 5 : JNum)), (["A", "B"], some 50)]) Q = true →
          otherPath Q ∉ keysOf [(["A"], (some 5 : JNum)), (["A", "B"], some 50)])
      ∧ ["A"] ∈ keysOf [(["A"], (some 5 : JNum)), (["A", "B"], some 50)]
      ∧ hasChildren (keysOf [(["A"], (some 5 : JNum)), (["A", "B"], some 50)]) ["A"] = true)
    ∧ (otherPath ["A"]
        ∈ (setupReport ⟨[(["A"], some 5), (["A", "B"], some 50)], [], []⟩).entries
      ∧ tget (setupReport
            ⟨[(["A"], some 5), (["A", "B"], some 50)], [], []⟩).bucketTimesAndOther
            (otherPath ["A"])
          = jsub (tget [(["A"], some 5), (["A", "B"], some 50)] ["A"])
              (childTotal [(["A"], some 5), (["A", "B"], some 50)]
                (keysOf [(["A"], some 5), (["A", "B"], some 50)]) ["A"])
      ∧ jadd (childTotal [(["A"], some 5), (["A", "B"], some 50)]
              (keysOf [(["A"], some 5), (["A", "B"], some 50)]) ["A"])
          (tget (setupReport
              ⟨[(["A"], some 5), (["A", "B"], some 50)], [], []⟩).bucketTimesAndOther
              (otherPath ["A"]))
        = tget [(["A"], some 5), (["A", "B"], some 50)] ["A"]) :=
  ⟨⟨by decide, by decide, by decide, by decide, by decide⟩,
    claim1_accounting_law ⟨[(["A"], some 5), (["A", "B"], some 50)], [], []⟩ ["A"]
      (by decide) (by decide) (by decide) (by decide) (by decide)⟩

/-- Claim C3 (corrected): start from Running raises "Already running" and
stop from Idle raises "not running", but report from Idle does not raise at
all, it simply succeeds. -/
theorem claim3_session_errors (fl : Rat) (s : Session) :
    (s.running = true → start s = .error "Already running")
    ∧ (s.running = false → stop fl s = .error "not running")
    ∧ (s.running = false → ∃ out, report fl s = .ok out) := by
  refine ⟨fun h => ?_, fun h => ?_, fun _ => ?_⟩
  · simp [start, h]
  · simp [stop, h]
  · unfold report
    by_cases he : s.enabled = false
    · exact ⟨_, by rw [if_pos he]⟩
    · exact ⟨_, by rw [if_neg he]⟩

/-- Witness for claim C3 at concrete sessions. -/
theorem claim3_witness :
    ((⟨true, true, []⟩ : Session).running = true
      ∧ start ⟨true, true, []⟩ = .error "Already running")
    ∧ ((⟨true, false, []⟩ : Session).running = false
      ∧ stop 10 ⟨true, false, []⟩ = .error "not running"
      ∧ ∃ out, report 10 ⟨true, false, []⟩ = .ok out) :=
  ⟨⟨rfl, (claim3_session_errors 10 ⟨true, true, []⟩).1 rfl⟩,
   ⟨rfl, (claim3_session_errors 10 ⟨true, false, []⟩).2.1 rfl,
    (claim3_session_errors 10 ⟨true, false, []⟩).2.2 rfl⟩⟩

/-- Counterexample for claim C3 as stated: report() while Idle does not raise
"not running"; on an idle enabled session it returns successfully with the
(empty-table) report lines. -/
theorem claim3_counterexample :
    report 10 ⟨true, false, []⟩
      = .ok (⟨true, false, []⟩, [.blank, .blank, .grandTotalLine (some 0)]) := rfl

/-- Claim C4 (corrected): setupReport rebuilds entries and the derived table
from bucketTimes, which it never modifies, so running it a second time on the
same snapshot produces exactly the same result: it is idempotent, and no
double injection occurs. -/
theorem claim4_setupReport_idempotent (st : ReportState) :
    setupReport (setupReport st) = setupReport st :=
  setupReport_depends_only_on_bucketTimes _ _ (setupReport_bucketTimes st)

/-- Counterexample for claim C4 as stated: on a concrete snapshot with a
parent (so an other-entry is injected), running setupReport twice equals
running it once, refuting that the two results differ. -/
theorem claim4_counterexample :
    setupReport (setupReport ⟨[(["A"], some 500), (["A", "B"], some 150)], [], []⟩)
      = setupReport ⟨[(["A"], some 500), (["A", "B"], some 150)], [], []⟩
    ∧ (setupReport ⟨[(["A"], some 500), (["A", "B"], some 150)], [], []⟩).entries
      = [["A"], ["A", "B"], ["A", "other A"]] :=
  ⟨rfl, rfl⟩

/-- Claim C5: when profiling is disabled, Profile returns the original
function itself (so the wrapped result is definitionally the original
function: same results, same errors, no extra effects), and increase is a
no-op on the accumulation table. -/
theorem claim5_disabled_identity {α β : Type} (bucketName : BucketName α) (f : JSFun α β)
    (t : Table) (entry : Path) (durationMs : Rat) :
    Profile false bucketName f = f ∧ increase false t entry durationMs = t :=
  ⟨rfl, rfl⟩

/-- Claim C7: starting a running timer or stopping a stopped timer fails
loudly with an error (the lib variant aborts the process, the src variant
throws; neither continues silently), and a valid stop invokes the completion
callback synchronously with the elapsed milliseconds and marks the timer not
running. -/
theorem claim7_timer_errors {σ : Type} (t : Timer σ) (now : Rat) (ext : σ) :
    (t.running = true → Timer.start now t = .error ("can't start a running timer: " ++ t.id))
    ∧ (t.running = false →
        Timer.stop now t ext = .error ("can't stop a stopped timer: " ++ t.id))
    ∧ (t.running = true →
        Timer.stop now t ext
          = .ok ({ t with startCPUTimeSecs := none, running := false },
              t.onStopped (t.startCPUTimeSecs.map (fun s0 => 1000 * (now - s0))) ext)) := by
  refine ⟨fun h => ?_, fun h => ?_, fun h => ?_⟩
  · simp [Timer.start, h]
  · simp [Timer.stop, h]
  · simp [Timer.stop, h]

/-- Witness for claim C7 at concrete timers. -/
theorem claim7_witness :
    ((⟨"build", true, some 2, 0, fun _ n => n + 1⟩ : Timer Nat).running = true
      ∧ Timer.start 3 (⟨"build", true, some 2, 0, fun _ n => n + 1⟩ : Timer Nat)
          = .error "can't start a running timer: build"
      ∧ Timer.stop 3 (⟨"build", true, some 2, 0, fun _ n => n + 1⟩ : Timer Nat) 5
          = .ok (⟨"build", false, none, 0, fun _ n => n + 1⟩, 6))
    ∧ ((⟨"idle", false, none, 0, fun _ n => n⟩ : Timer Nat).running = false
      ∧ Timer.stop 3 (⟨"idle", false, none, 0, fun _ n => n⟩ : Timer Nat) 5
          = .error "can't stop a stopped timer: idle") :=
  ⟨⟨rfl, (claim7_timer_errors ⟨"build", true, some 2, 0, fun _ n => n + 1⟩ 3 5).1 rfl,
     (claim7_timer_errors ⟨"build", true, some 2, 0, fun _ n => n + 1⟩ 3 5).2.2 rfl⟩,
   ⟨rfl, (claim7_timer_errors ⟨"idle", false, none, 0, fun _ n => n⟩ 3 5).2.1 rfl⟩⟩

/-! Lemmas about the wrapped-call machinery. -/

theorem profileCall_preserves {β : Type} (name : String)
    (body : PState → PState × Except String β)
    (hbody : ∀ s0, (body s0).1.stack = s0.stack ∧ (body s0).1.timers = s0.timers)
    (s : PState) :
    (profileCall name body s).1.stack = s.stack
      ∧ (profileCall name body s).1.timers = s.timers := by
  unfold profileCall
  by_cases hr : s.running = false
  · rw [if_pos hr]
    exact hbody s
  · rw [if_neg hr]
    have h2 := hbody { s with stack := s.stack ++ [name], timers := s.timers ++ [(s.stack ++ [name], s.clock)] }
    simp only [] at h2
    simp [h2.1, h2.2, List.getLast?_concat, List.dropLast_concat]

theorem exec_preserves (enabled : Bool) (c : Comp) (s : PState) :
    (exec enabled c s).1.stack = s.stack ∧ (exec enabled c s).1.timers = s.timers := by
  induction c generalizing s with
  | work dt => exact ⟨rfl, rfl⟩
  | fail dt => exact ⟨rfl, rfl⟩
  | seq a b iha ihb =>
    have hunfold : exec enabled (Comp.seq a b) s
        = match exec enabled a s with
          | (s1, .ok _) => exec enabled b s1
          | (s1, .error e) => (s1, .error e) := rfl
    rcases h : exec enabled a s with ⟨s1, r⟩
    have ha := iha s
    rw [h] at ha
    rcases r with e | v
    · rw [hunfold, h]
      exact ⟨ha.1, ha.2⟩
    · rw [hunfold, h]
      exact ⟨(ihb s1).1.trans ha.1, (ihb s1).2.trans ha.2⟩
  | call n body ihbody =>
    have hunfold : exec enabled (Comp.call n body) s
        = if enabled then profileCall n (fun s0 => exec enabled body s0) s
          else exec enabled body s := rfl
    rw [hunfold]
    by_cases he : enabled
    · rw [if_pos he]
      exact profileCall_preserves n _ (fun s0 => ihbody s0) s
    · rw [if_neg he]
      exact ihbody s

theorem exec_frame_not_running (enabled : Bool) (c : Comp) (s : PState)
    (hr : s.running = false) :
    (exec enabled c s).1.bucketTimes = s.bucketTimes
      ∧ (exec enabled c s).1.running = false := by
  induction c generalizing s with
  | work dt => exact ⟨rfl, hr⟩
  | fail dt => exact ⟨rfl, hr⟩
  | seq a b iha ihb =>
    have hunfold : exec enabled (Comp.seq a b) s
        = match exec enabled a s with
          | (s1, .ok _) => exec enabled b s1
          | (s1, .error e) => (s1, .error e) := rfl
    rcases h : exec enabled a s with ⟨s1, r⟩
    have ha := iha s hr
    rw [h] at ha
    rcases r with e | v
    · rw [hunfold, h]
      exact ⟨ha.1, ha.2⟩
    · rw [hunfold, h]
      exact ⟨((ihb s1 ha.2).1).trans ha.1, (ihb s1 ha.2).2⟩
  | call n body ihbody =>
    have hunfold : exec enabled (Comp.call n body) s
        = if enabled then profileCall n (fun s0 => exec enabled body s0) s
          else exec enabled body s := rfl
    rw [hunfold]
    by_cases he : enabled
    · rw [if_pos he]
      unfold profileCall
      rw [if_pos hr]
      exact ihbody s hr
    · rw [if_neg he]
      exact ihbody s hr

/-- Claim C6: for every sequence of nested wrapped calls, including failing
ones, both the active call-path stack and the active timer stack of the
logical thread return to their pre-call state after the outermost
computation completes or fails: every push is matched by exactly one pop on
every exit path. -/
theorem claim6_stack_balance (enabled : Bool) (c : Comp) (s : PState) :
    (exec enabled c s).1.stack = s.stack ∧ (exec enabled c s).1.timers = s.timers :=
  exec_preserves enabled c s

/-- Claim C9: with profiling enabled but no session running, a wrapped
function invokes the original function directly on the same arguments and
state (so it returns its result or propagates its error unchanged), and the
execution of any computation leaves the accumulation table and the call-path
stack unchanged. -/
theorem claim9_not_running_direct {α β : Type} (bucketName : BucketName α) (f : JSFun α β)
    (a : α) (s : PState) (c : Comp) (hr : s.running = false) :
    Profile true bucketName f a s = f a s
    ∧ (∀ n : String, exec true (Comp.call n c) s = exec true c s)
    ∧ (exec true c s).1.bucketTimes = s.bucketTimes
    ∧ (exec true c s).1.stack = s.stack := by
  refine ⟨?_, fun n => ?_, (exec_frame_not_running true c s hr).1, (exec_preserves true c s).1⟩
  · show profileCall (resolveName bucketName a) (f a) s = f a s
    unfold profileCall
    rw [if_pos hr]
  · show (if true then profileCall n (fun s0 => exec true c s0) s else exec true c s)
      = exec true c s
    rw [if_pos rfl]
    unfold profileCall
    rw [if_pos hr]

/-- Witness for claim C9 at a concrete idle state. -/
theorem claim9_witness :
    (⟨false, 0, [], [], []⟩ : PState).running = false
    ∧ (Profile true (.fixed "b") (fun (_ : Unit) s => (s, Except.ok ())) () ⟨false, 0, [], [], []⟩
        = (fun (_ : Unit) s => (s, Except.ok ())) () ⟨false, 0, [], [], []⟩
      ∧ (∀ n : String,
          exec true (Comp.call n (Comp.work 1)) ⟨false, 0, [], [], []⟩
            = exec true (Comp.work 1) ⟨false, 0, [], [], []⟩)
      ∧ (exec true (Comp.work 1) ⟨false, 0, [], [], []⟩).1.bucketTimes
          = (⟨false, 0, [], [], []⟩ : PState).bucketTimes
      ∧ (exec true (Comp.work 1) ⟨false, 0, [], [], []⟩).1.stack
          = (⟨false, 0, [], [], []⟩ : PState).stack) :=
  ⟨rfl, claim9_not_running_direct (.fixed "b") (fun (_ : Unit) s => (s, Except.ok ())) ()
    ⟨false, 0, [], [], []⟩ (Comp.work 1) rfl⟩

/-! The threshold filter in the hierarchical view. -/

/-- Claim C2 (corrected): an entry whose accumulated time is below the filter
threshold produces no output at all: a sub-threshold leaf prints nothing, and
a sub-threshold parent prints neither its own line nor anything for its
children, because reportOnParent returns before recursing; its children are
not evaluated.  An above-threshold leaf prints exactly its own line. -/
theorem claim2_threshold_suppression (fl : Rat) (tA : Table) (es : List Path)
    (level : Nat) (entry : Path) :
    (jltR (tget tA entry) fl = true → reportOn fl tA es level entry = [])
    ∧ (jltR (tget tA entry) fl = false → isLeaf es entry = true →
        reportOn fl tA es level entry = [.entryLine level entry (tget tA entry)]) := by
  constructor
  · intro h
    unfold reportOn reportOnAux
    by_cases hc : hasChildren es entry
    · simp [hc, h]
    · simp [hc, reportOnLeaf, h]
  · intro h hleaf
    have hc : hasChildren es entry = false := by simpa [isLeaf] using hleaf
    unfold reportOn reportOnAux
    simp [hc, reportOnLeaf, h]

/-- Witness for claim C2: a 5ms leaf is suppressed under filter 10 and a
50ms leaf prints its line. -/
theorem claim2_witness :
    (jltR (tget [(["A"], some 5)] ["A"]) 10 = true
      ∧ reportOn 10 [(["A"], some 5)] [["A"]] 0 ["A"] = [])
    ∧ (jltR (tget [(["B"], some 50)] ["B"]) 10 = false
      ∧ isLeaf [["B"]] ["B"] = true
      ∧ reportOn 10 [(["B"], some 50)] [["B"]] 0 ["B"]
          = [.entryLine 0 ["B"] (tget [(["B"], some 50)] ["B"])]) :=
  ⟨⟨by decide, (claim2_threshold_suppression 10 [(["A"], some 5)] [["A"]] 0 ["A"]).1 (by decide)⟩,
   ⟨by decide, by decide,
    (claim2_threshold_suppression 10 [(["B"], some 50)] [["B"]] 0 ["B"]).2
      (by decide) (by decide)⟩⟩

/-- Counterexample for claim C2 as stated: with filter 10, a parent with time
5 whose stored child has time 50 produces no hierarchical output at all; the
above-threshold child is never evaluated, refuting that children of a
sub-threshold parent are still evaluated independently and printed. -/
theorem claim2_counterexample :
    reportHierarchy 10
        (setupReport ⟨[(["A"], some 5), (["A", "B"], some 50)], [], []⟩).bucketTimesAndOther
        (setupReport ⟨[(["A"], some 5), (["A", "B"], some 50)], [], []⟩).entries
      = []
    ∧ ["A", "B"] ∈ (setupReport ⟨[(["A"], some 5), (["A", "B"], some 50)], [], []⟩).entries
    ∧ jltR (tget (setupReport
          ⟨[(["A"], some 5), (["A", "B"], some 50)], [], []⟩).bucketTimesAndOther
        ["A", "B"]) 10 = false :=
  ⟨rfl, by decide, by decide⟩

/-! Membership facts about the entries produced by setupReport. -/

theorem foldl_inject_entries_sub (ps : List Path) (st0 : ReportState) :
    ∀ e ∈ (ps.foldl injectOtherTime st0).entries,
      e ∈ st0.entries ∨ ∃ Q ∈ ps, e = otherPath Q := by
  induction ps generalizing st0 with
  | nil => exact fun e he => .inl he
  | cons Q ps ih =>
    intro e he
    rcases ih (injectOtherTime st0 Q) e he with h | ⟨R, hR, rfl⟩
    · rcases List.mem_append.1 h with h | h
      · exact .inl h
      · exact .inr ⟨Q, by simp, by simpa using h⟩
    · exact .inr ⟨R, by simp [hR], rfl⟩

theorem foldl_inject_entries_sup (ps : List Path) (st0 : ReportState) :
    ∀ e ∈ st0.entries, e ∈ (ps.foldl injectOtherTime st0).entries := by
  induction ps generalizing st0 with
  | nil => exact fun e he => he
  | cons Q ps ih =>
    intro e he
    exact ih (injectOtherTime st0 Q) e (List.mem_append_left _ he)

theorem setupReport_entries_mem (st : ReportState) :
    ∀ e ∈ (setupReport st).entries,
      e ∈ keysOf st.bucketTimes
      ∨ ∃ Q, Q ∈ keysOf st.bucketTimes
          ∧ hasChildren (keysOf st.bucketTimes) Q = true ∧ e = otherPath Q := by
  intro e he
  rcases foldl_inject_entries_sub _ _ e he with h | ⟨Q, hQ, rfl⟩
  · exact .inl h
  · have := List.mem_filter.1 hQ
    exact .inr ⟨Q, this.1, by simpa using this.2, rfl⟩

theorem setupReport_entries_keys (st : ReportState) :
    ∀ e ∈ keysOf st.bucketTimes, e ∈ (setupReport st).entries :=
  fun e he => foldl_inject_entries_sup _ _ e he

/-! The first element of every entry printed by the hierarchical walk. -/

theorem isChild_take_one {entry child : Path} (h : isChild entry child = true)
    (hne : entry ≠ []) : child.take 1 = entry.take 1 ∧ child ≠ [] := by
  simp only [isChild, Bool.and_eq_true, beq_iff_eq] at h
  obtain ⟨hlen, htake⟩ := h
  have h1 : 1 ≤ entry.length := by
    cases entry with
    | nil => exact absurd rfl hne
    | cons a l => simp
  constructor
  · rw [htake, List.take_take, min_eq_left h1]
  · intro hc
    rw [hc] at hlen
    simp at hlen

theorem reportOnAux_entry_head (fl : Rat) (tA : Table) (es : List Path) :
    ∀ (fuel level : Nat) (entry : Path) (lv : Nat) (q : Path) (tm : JNum),
      OutLine.entryLine lv q tm ∈ reportOnAux fl tA es fuel level entry →
      entry ≠ [] → q.take 1 = entry.take 1 := by
  intro fuel
  induction fuel with
  | zero =>
    intro level entry lv q tm h
    simp [reportOnAux] at h
  | succ fuel ih =>
    intro level entry lv q tm h hne
    rw [reportOnAux] at h
    by_cases hc : hasChildren es entry
    · rw [if_pos hc] at h
      by_cases hf : jltR (tget tA entry) fl
      · simp [hf] at h
      · rw [if_neg (by simpa using hf)] at h
        rcases List.mem_cons.1 h with h | h
        · cases h
          rfl
        · rcases List.mem_flatten.1 h with ⟨l, hl, hq⟩
          rcases List.mem_map.1 hl with ⟨child, hchild, rfl⟩
          have hch := List.mem_filter.1 hchild
          obtain ⟨hhead, hchne⟩ := isChild_take_one (by simpa using hch.2) hne
          rw [← hhead]
          exact ih (level + 1) child lv q tm hq hchne
    · rw [if_neg hc] at h
      unfold reportOnLeaf at h
      by_cases hf : jltR (tget tA entry) fl
      · simp [hf] at h
      · rw [if_neg (by simpa using hf)] at h
        rcases List.mem_singleton.1 h with h
        cases h
        rfl

/-! Membership in allLeafs. -/

theorem mem_uniqFirstAux (x : String) : ∀ (l seen : List String),
    x ∈ uniqFirstAux seen l ↔ x ∈ l ∧ x ∉ seen := by
  intro l
  induction l with
  | nil =>
    intro seen
    simp [uniqFirstAux]
  | cons y ys ih =>
    intro seen
    by_cases hy : y ∈ seen
    · rw [uniqFirstAux, if_pos hy, ih seen]
      constructor
      · rintro ⟨h1, h2⟩
        exact ⟨List.mem_cons_of_mem _ h1, h2⟩
      · rintro ⟨h1, h2⟩
        rcases List.mem_cons.1 h1 with rfl | h1
        · exact absurd hy h2
        · exact ⟨h1, h2⟩
    · rw [uniqFirstAux, if_neg hy]
      constructor
      · intro h
        rcases List.mem_cons.1 h with rfl | h
        · exact ⟨List.mem_cons_self _ _, hy⟩
        · obtain ⟨h1, h2⟩ := (ih (y :: seen)).1 h
          exact ⟨List.mem_cons_of_mem _ h1, fun hc => h2 (List.mem_cons_of_mem _ hc)⟩
      · rintro ⟨h1, h2⟩
        rcases List.mem_cons.1 h1 with rfl | h1
        · exact List.mem_cons_self _ _
        · by_cases hxy : x = y
          · subst hxy
            exact List.mem_cons_self _ _
          · refine List.mem_cons_of_mem _ ((ih (y :: seen)).2 ⟨h1, ?_⟩)
            intro hc
            rcases List.mem_cons.1 hc with h3 | h3
            · exact hxy h3
            · exact h2 h3

theorem mem_uniqFirst (l : List String) (x : String) : x ∈ uniqFirst l ↔ x ∈ l := by
  simp [uniqFirst, mem_uniqFirstAux]

/-- Claim C10 (corrected): a stored path whose depth-1 prefix is not itself a
stored key never produces a line in the hierarchical view; and when it
additionally has no stored children it is still counted as a leaf in the
flat view (it stays a leaf after injection, its name receives a per-name
total, and it belongs to the list summed by leafTotal for its name). -/
theorem claim10_unrooted_paths (st : ReportState) (p : Path) (fl : Rat)
    (hne : ∀ q ∈ keysOf st.bucketTimes, q ≠ [])
    (hp : p ∈ keysOf st.bucketTimes)
    (hpre : p.take 1 ∉ keysOf st.bucketTimes) :
    (∀ lv tm, OutLine.entryLine lv p tm
        ∉ reportHierarchy fl (setupReport st).bucketTimesAndOther (setupReport st).entries)
    ∧ (childrenOf (keysOf st.bucketTimes) p = [] →
        isLeaf (setupReport st).entries p = true
        ∧ p ∈ (setupReport st).entries
        ∧ entryNameStr p ∈ allLeafs (setupReport st).entries
        ∧ p ∈ (setupReport st).entries.filter
            (fun e => isLeaf (setupReport st).entries e
              && entryNameStr e == entryNameStr p)) := by
  constructor
  · intro lv tm hmem
    rcases List.mem_flatten.1 hmem with ⟨l, hl, hline⟩
    rcases List.mem_map.1 hl with ⟨t, ht, rfl⟩
    have ht' := List.mem_filter.1 ht
    have htlen : t.length = 1 := by simpa [isTopLevelEntry] using ht'.2
    have htkeys : t ∈ keysOf st.bucketTimes := by
      rcases setupReport_entries_mem st t ht'.1 with h | ⟨Q, hQ, _, rfl⟩
      · exact h
      · exfalso
        have h0 : (otherPath Q).length = 1 := htlen
        rw [otherPath, List.length_append, List.length_cons, List.length_nil] at h0
        have hq0 : Q.length = 0 := by omega
        exact hne Q hQ (List.length_eq_zero.1 hq0)
    have htne : t ≠ [] := hne t htkeys
    have hhead := reportOnAux_entry_head fl (setupReport st).bucketTimesAndOther
      (setupReport st).entries _ 0 t lv p tm hline htne
    have htake : t.take 1 = t := by
      rw [← htlen]
      exact List.take_length t
    rw [htake] at hhead
    exact hpre (hhead ▸ htkeys)
  · intro hnochild
    have hleaf : isLeaf (setupReport st).entries p = true := by
      have hnil : childrenOf (setupReport st).entries p = [] := by
        simp only [childrenOf, List.filter_eq_nil_iff]
        intro e he hchild
        rcases setupReport_entries_mem st e he with h | ⟨Q, hQ, hQc, rfl⟩
        · have : e ∈ childrenOf (keysOf st.bucketTimes) p :=
            List.mem_filter.2 ⟨h, by simpa using hchild⟩
          rw [hnochild] at this
          simp at this
        · have hPQ : p = Q := (isChild_otherPath p Q).1 (by simpa using hchild)
          subst hPQ
          rw [hasChildren_iff] at hQc
          exact hQc hnochild
      simp [isLeaf, hasChildren, hnil]
    have hpes : p ∈ (setupReport st).entries := setupReport_entries_keys st p hp
    have hfilter : p ∈ (setupReport st).entries.filter
        (fun e => isLeaf (setupReport st).entries e
          && entryNameStr e == entryNameStr p) :=
      List.mem_filter.2 ⟨hpes, by simp [hleaf]⟩
    refine ⟨hleaf, hpes, ?_, hfilter⟩
    rw [allLeafs, mem_uniqFirst]
    exact List.mem_map_of_mem _ (List.mem_filter.2 ⟨hpes, by simp [hleaf]⟩)

/-- Witness for claim C10 on a concrete table holding only the path a.b. -/
theorem claim10_witness :
    ((∀ q ∈ keysOf [(["a", "b"], (some 50 : JNum))], q ≠ [])
      ∧ ["a", "b"] ∈ keysOf [(["a", "b"], (some 50 : JNum))]
      ∧ ["a", "b"].take 1 ∉ keysOf [(["a", "b"], (some 50 : JNum))]
      ∧ childrenOf (keysOf [(["a", "b"], (some 50 : JNum))]) ["a", "b"] = [])
    ∧ (∀ lv tm, OutLine.entryLine lv ["a", "b"] tm
        ∉ reportHierarchy 10
            (setupReport ⟨[(["a", "b"], some 50)], [], []⟩).bucketTimesAndOther
            (setupReport ⟨[(["a", "b"], some 50)], [], []⟩).entries)
    ∧ entryNameStr ["a", "b"] ∈ allLeafs (setupReport ⟨[(["a", "b"], some 50)], [], []⟩).entries :=
  ⟨⟨by decide, by decide, by decide, by decide⟩,
   (claim10_unrooted_paths ⟨[(["a", "b"], some 50)], [], []⟩ ["a", "b"] 10
      (by decide) (by decide) (by decide)).1,
   ((claim10_unrooted_paths ⟨[(["a", "b"], some 50)], [], []⟩ ["a", "b"] 10
      (by decide) (by decide) (by decide)).2 (by decide)).2.2.1⟩

/-- Counterexample for claim C10 as stated: the stored path a.b has an
unstored depth-1 prefix but also a stored child a.b.c, so after setupReport
it is not a leaf and its terminal name b receives no per-name total in the
flat view, refuting that every such path is counted as a leaf. -/
theorem claim10_counterexample :
    ["a", "b"] ∈ keysOf [(["a", "b"], (some 50 : JNum)), (["a", "b", "c"], some 30)]
    ∧ ["a", "b"].take 1 ∉ keysOf [(["a", "b"], (some 50 : JNum)), (["a", "b", "c"], some 30)]
    ∧ isLeaf (setupReport
          ⟨[(["a", "b"], some 50), (["a", "b", "c"], some 30)], [], []⟩).entries
        ["a", "b"] = false
    ∧ "b" ∉ allLeafs (setupReport
          ⟨[(["a", "b"], some 50), (["a", "b", "c"], some 30)], [], []⟩).entries :=
  ⟨by decide, by decide, by decide, by decide⟩

/-! Generic list-sum lemmas used for the leaf-total accounting (claim C8). -/

/-- Value of a table entry as a rational, defaulting the absent case. -/
def rval (t : Table) (p : Path) : Rat := (tget t p).getD 0

theorem foldl_jadd_eq_sum {α : Type} (l : List α) (g : α → JNum)
    (hg : ∀ x ∈ l, (g x).isSome = true) :
    ∀ init : Rat,
      l.foldl (fun acc x => jadd acc (g x)) (some init)
        = some (init + (l.map (fun x => (g x).getD 0)).sum) := by
  induction l with
  | nil => intro init; simp
  | cons x xs ih =>
    intro init
    obtain ⟨v, hv⟩ := Option.isSome_iff_exists.1 (hg x (by simp))
    rw [List.foldl_cons, hv]
    show xs.foldl (fun acc x => jadd acc (g x)) (some (init + v)) = _
    rw [ih (fun y hy => hg y (by simp [hy])) (init + v)]
    simp [hv, add_assoc]

theorem sum_map_add {α : Type} (l : List α) (f g : α → Rat) :
    (l.map (fun x => f x + g x)).sum = (l.map f).sum + (l.map g).sum := by
  induction l with
  | nil => simp
  | cons x xs ih => simp [ih]; ring

theorem sum_map_sub {α : Type} (l : List α) (f g : α → Rat) :
    (l.map (fun x => f x - g x)).sum = (l.map f).sum - (l.map g).sum := by
  induction l with
  | nil => simp
  | cons x xs ih => simp [ih]; ring

theorem sum_filter_split {α : Type} (l : List α) (p : α → Bool) (f : α → Rat) :
    (l.map f).sum
      = ((l.filter p).map f).sum + ((l.filter (fun x => !p x)).map f).sum := by
  induction l with
  | nil => simp
  | cons x xs ih =>
    by_cases hx : p x
    · simp [hx, ih]; ring
    · simp [hx, ih]; ring

theorem sum_filter_ite {α : Type} (l : List α) (p : α → Bool) (f : α → Rat) :
    ((l.filter p).map f).sum = (l.map (fun x => if p x then f x else 0)).sum := by
  induction l with
  | nil => simp
  | cons x xs ih =>
    by_cases hx : p x
    · simp [hx, ih]
    · simp [hx, ih]

theorem sum_sum_comm {α β : Type} (l1 : List α) (l2 : List β) (f : α → β → Rat) :
    (l1.map (fun a => (l2.map (fun b => f a b)).sum)).sum
      = (l2.map (fun b => (l1.map (fun a => f a b)).sum)).sum := by
  induction l1 with
  | nil => simp
  | cons a l1 ih =>
    simp only [List.map_cons, List.sum_cons, ih]
    rw [← sum_map_add]

theorem sum_ite_unique {α : Type} [DecidableEq α] (l : List α) (hnd : l.Nodup)
    (p : α → Bool) (a : α) (hp : ∀ x, p x = true → x = a) (v : Rat) :
    (l.map (fun x => if p x then v else 0)).sum = if a ∈ l ∧ p a then v else 0 := by
  induction l with
  | nil => simp
  | cons x xs ih =>
    have hnd' : xs.Nodup := hnd.of_cons
    by_cases hx : p x
    · have hxa : x = a := hp x hx
      subst hxa
      have hnx : x ∉ xs := (List.nodup_cons.1 hnd).1
      have hzero : (xs.map (fun y => if p y then v else 0)).sum = 0 := by
        rw [ih hnd']
        rw [if_neg]
        rintro ⟨hmem, _⟩
        exact hnx hmem
      simp [hx, hzero]
    · rw [List.map_cons, List.sum_cons, if_neg hx, zero_add, ih hnd']
      by_cases ha : a ∈ xs ∧ p a = true
      · rw [if_pos ha, if_pos ⟨List.mem_cons_of_mem _ ha.1, ha.2⟩]
      · rw [if_neg ha, if_neg]
        rintro ⟨hmem, hpa⟩
        rcases List.mem_cons.1 hmem with rfl | hmem
        · exact hx hpa
        · exact ha ⟨hmem, hpa⟩

theorem sum_group_by_name (f : Path → Rat) :
    ∀ (ns : List String) (L : List Path), ns.Nodup →
      (∀ e ∈ L, entryNameStr e ∈ ns) →
      (ns.map (fun n => ((L.filter (fun e => entryNameStr e == n)).map f).sum)).sum
        = (L.map f).sum := by
  intro ns
  induction ns with
  | nil =>
    intro L _ hcov
    have hL : L = [] := by
      cases L with
      | nil => rfl
      | cons x xs => exact absurd (hcov x (by simp)) (by simp)
    simp [hL]
  | cons n ns ih =>
    intro L hnd hcov
    have hnd' : ns.Nodup := hnd.of_cons
    have hnn : n ∉ ns := (List.nodup_cons.1 hnd).1
    rw [List.map_cons, List.sum_cons]
    have htail : ∀ n' ∈ ns,
        L.filter (fun e => entryNameStr e == n')
          = (L.filter (fun e => !(entryNameStr e == n))).filter
              (fun e => entryNameStr e == n') := by
      intro n' hn'
      rw [List.filter_filter]
      refine (List.filter_congr ?_).symm
      intro e _
      by_cases he : entryNameStr e = n'
      · have hne2 : entryNameStr e ≠ n := by
          rw [he]
          intro hc
          exact hnn (hc ▸ hn')
        have hn'n : ¬ n' = n := by
          intro hc
          exact hnn (hc ▸ hn')
        simp [he, hne2, hn'n]
      · simp [he]
    have htail2 :
        (ns.map (fun n' => ((L.filter (fun e => entryNameStr e == n')).map f).sum)).sum
          = (ns.map (fun n' =>
              (((L.filter (fun e => !(entryNameStr e == n))).filter
                  (fun e => entryNameStr e == n')).map f).sum)).sum := by
      apply congrArg
      apply List.map_congr_left
      intro n' hn'
      rw [htail n' hn']
    rw [htail2, ih (L.filter (fun e => !(entryNameStr e == n))) hnd' ?_]
    · rw [sum_filter_split L (fun e => entryNameStr e == n) f]
    · intro e he
      have he' := List.mem_filter.1 he
      have hcov' := hcov e he'.1
      rcases List.mem_cons.1 hcov' with hc | hc
      · exfalso
        have := he'.2
        simp [hc] at this
      · exact hc

/-! Structure of the leaf set after injection. -/

theorem hasChildren_append_others (es0 parents : List Path)
    (hpar : ∀ Q ∈ parents, hasChildren es0 Q = true) (e : Path) :
    hasChildren (es0 ++ parents.map otherPath) e = hasChildren es0 e := by
  by_cases hmem : e ∈ parents
  · have h1 : hasChildren es0 e = true := hpar e hmem
    have h2 : hasChildren (es0 ++ parents.map otherPath) e = true := by
      rw [hasChildren_iff] at h1 ⊢
      rw [childrenOf_append]
      intro hc
      exact h1 (by simpa using (List.append_eq_nil.1 hc).1)
    rw [h1, h2]
  · have hni : childrenOf (parents.map otherPath) e = [] := by
      simp only [childrenOf, List.filter_eq_nil_iff]
      intro x hx hchild
      rcases List.mem_map.1 hx with ⟨R, hR, rfl⟩
      exact hmem (((isChild_otherPath e R).1 (by simpa using hchild)) ▸ hR)
    unfold hasChildren
    rw [childrenOf_append, hni, List.append_nil]

theorem injected_is_leaf (es0 parents : List Path)
    (hsub : ∀ Q ∈ parents, Q ∈ es0)
    (hpar : ∀ Q ∈ parents, hasChildren es0 Q = true)
    (_hne : ∀ q ∈ es0, q ≠ [])
    (hclosed : ∀ p ∈ es0, 2 ≤ p.length → p.take (p.length - 1) ∈ es0)
    (hfresh : ∀ Q ∈ es0, hasChildren es0 Q = true → otherPath Q ∉ es0)
    (Q : Path) (hQ : Q ∈ parents) :
    childrenOf (es0 ++ parents.map otherPath) (otherPath Q) = [] := by
  have hQ0 : Q ∈ es0 := hsub Q hQ
  have hQh : hasChildren es0 Q = true := hpar Q hQ
  rw [childrenOf_append]
  have h1 : childrenOf es0 (otherPath Q) = [] := by
    simp only [childrenOf, List.filter_eq_nil_iff]
    intro x hx hchild
    simp only [isChild, Bool.and_eq_true, beq_iff_eq] at hchild
    obtain ⟨hlen, htake⟩ := hchild
    have hQlen : (otherPath Q).length = Q.length + 1 := by simp [otherPath]
    have hx2 : 2 ≤ x.length := by omega
    have hmem := hclosed x hx hx2
    have hlen2 : x.length - 1 = (otherPath Q).length := by omega
    rw [hlen2, ← htake] at hmem
    exact hfresh Q hQ0 hQh hmem
  have h2 : childrenOf (parents.map otherPath) (otherPath Q) = [] := by
    simp only [childrenOf, List.filter_eq_nil_iff]
    intro x hx hchild
    rcases List.mem_map.1 hx with ⟨R, hR, rfl⟩
    have hQR : otherPath Q = R := (isChild_otherPath _ R).1 (by simpa using hchild)
    exact hfresh Q hQ0 hQh (hQR ▸ hsub R hR)
  rw [h1, h2]
  rfl

theorem leaves_append_decomp (es0 parents : List Path)
    (hsub : ∀ Q ∈ parents, Q ∈ es0)
    (hpar : ∀ Q ∈ parents, hasChildren es0 Q = true)
    (hne : ∀ q ∈ es0, q ≠ [])
    (hclosed : ∀ p ∈ es0, 2 ≤ p.length → p.take (p.length - 1) ∈ es0)
    (hfresh : ∀ Q ∈ es0, hasChildren es0 Q = true → otherPath Q ∉ es0) :
    (es0 ++ parents.map otherPath).filter
        (fun e => isLeaf (es0 ++ parents.map otherPath) e)
      = es0.filter (fun e => isLeaf es0 e) ++ parents.map otherPath := by
  rw [List.filter_append]
  congr 1
  · apply List.filter_congr
    intro e _
    unfold isLeaf
    rw [hasChildren_append_others es0 parents hpar e]
  · apply List.filter_eq_self.2
    intro x hx
    rcases List.mem_map.1 hx with ⟨Q, hQ, rfl⟩
    have := injected_is_leaf es0 parents hsub hpar hne hclosed hfresh Q hQ
    simp [isLeaf, hasChildren, this]

/-! The double-counting identity: summing over the children of every parent
counts every stored path of depth at least two exactly once. -/

theorem isChild_unique {Q C : Path} (h : isChild Q C = true) :
    Q = C.take (C.length - 1) := by
  simp only [isChild, Bool.and_eq_true, beq_iff_eq] at h
  obtain ⟨hlen, htake⟩ := h
  have : Q.length = C.length - 1 := by omega
  rw [htake, this]

theorem parent_cond_iff (es0 : List Path)
    (hne : ∀ q ∈ es0, q ≠ [])
    (hclosed : ∀ p ∈ es0, 2 ≤ p.length → p.take (p.length - 1) ∈ es0)
    (C : Path) (hC : C ∈ es0) :
    (C.take (C.length - 1) ∈ es0.filter (fun e => hasChildren es0 e)
        ∧ isChild (C.take (C.length - 1)) C = true)
      ↔ 2 ≤ C.length := by
  constructor
  · rintro ⟨hmem, hchild⟩
    have hmem' := List.mem_filter.1 hmem
    have hne' := hne _ hmem'.1
    have h1 : 1 ≤ (C.take (C.length - 1)).length := by
      cases hq : C.take (C.length - 1) with
      | nil => exact absurd hq hne'
      | cons a l => simp [hq]
    rw [List.length_take] at h1
    omega
  · intro h2
    have hCne : C ≠ [] := hne C hC
    have hClen : 1 ≤ C.length := by
      cases hc : C with
      | nil => exact absurd hc hCne
      | cons a l => simp [hc]
    have htlen : (C.take (C.length - 1)).length = C.length - 1 := by
      rw [List.length_take]
      omega
    have hchild : isChild (C.take (C.length - 1)) C = true := by
      simp only [isChild, Bool.and_eq_true, beq_iff_eq]
      constructor
      · rw [htlen]
        omega
      · rw [htlen]
    refine ⟨List.mem_filter.2 ⟨hclosed C hC h2, ?_⟩, hchild⟩
    have hCchild : C ∈ childrenOf es0 (C.take (C.length - 1)) :=
      List.mem_filter.2 ⟨hC, by simpa using hchild⟩
    rw [hasChildren_iff]
    intro hnil
    rw [hnil] at hCchild
    simp at hCchild

theorem sum_child_totals (es0 : List Path) (hnd : es0.Nodup)
    (hne : ∀ q ∈ es0, q ≠ [])
    (hclosed : ∀ p ∈ es0, 2 ≤ p.length → p.take (p.length - 1) ∈ es0)
    (f : Path → Rat) :
    ((es0.filter (fun e => hasChildren es0 e)).map
        (fun Q => ((childrenOf es0 Q).map f).sum)).sum
      = ((es0.filter (fun c => decide (2 ≤ c.length))).map f).sum := by
  have hparentsNd : (es0.filter (fun e => hasChildren es0 e)).Nodup := hnd.filter _
  have step1 :
      ((es0.filter (fun e => hasChildren es0 e)).map
          (fun Q => ((childrenOf es0 Q).map f).sum)).sum
        = ((es0.filter (fun e => hasChildren es0 e)).map
            (fun Q => (es0.map (fun C => if isChild Q C then f C else 0)).sum)).sum := by
    apply congrArg
    apply List.map_congr_left
    intro Q _
    exact sum_filter_ite es0 (fun C => isChild Q C) f
  rw [step1, sum_sum_comm]
  have step3 :
      (es0.map (fun C =>
          ((es0.filter (fun e => hasChildren es0 e)).map
            (fun Q => if isChild Q C then f C else 0)).sum)).sum
        = (es0.map (fun C => if decide (2 ≤ C.length) then f C else 0)).sum := by
    apply congrArg
    apply List.map_congr_left
    intro C hC
    rw [sum_ite_unique (es0.filter (fun e => hasChildren es0 e)) hparentsNd
      (fun Q => isChild Q C) (C.take (C.length - 1))
      (fun Q hQ => isChild_unique hQ) (f C)]
    by_cases h2 : 2 ≤ C.length
    · rw [if_pos ((parent_cond_iff es0 hne hclosed C hC).2 h2), if_pos (by simpa using h2)]
    · rw [if_neg (fun hc => h2 ((parent_cond_iff es0 hne hclosed C hC).1 hc)),
        if_neg (by simpa using h2)]
  rw [step3, ← sum_filter_ite]

/-! The grand-total fold of reportTotals. -/

theorem totalsFold_snd (fl : Rat) :
    ∀ (ts : List (String × JNum)) (acc : List OutLine × JNum),
      (ts.foldl
          (fun acc t =>
            if jltR t.2 fl then acc
            else (acc.1 ++ [.totalLine t.1 t.2], jadd acc.2 t.2)) acc).2
        = ts.foldl (fun a t => if jltR t.2 fl then a else jadd a t.2) acc.2 := by
  intro ts
  induction ts with
  | nil => intro acc; rfl
  | cons t ts ih =>
    intro acc
    by_cases h : jltR t.2 fl
    · simp only [List.foldl_cons, if_pos h]
      exact ih acc
    · simp only [List.foldl_cons, if_neg h]
      exact ih (acc.1 ++ [.totalLine t.1 t.2], jadd acc.2 t.2)

theorem totalsFold_snd_eq (fl : Rat) (ts : List (String × JNum)) :
    (totalsFold fl ts).2
      = ts.foldl (fun a t => if jltR t.2 fl then a else jadd a t.2) (some 0) := by
  unfold totalsFold
  exact totalsFold_snd fl ts ([], some 0)

theorem insertLE_perm {α : Type} (le : α → α → Bool) (x : α) (l : List α) :
    (insertLE le x l).Perm (x :: l) := by
  induction l with
  | nil => exact List.Perm.refl _
  | cons y ys ih =>
    unfold insertLE
    by_cases h : le x y
    · rw [if_pos h]
    · rw [if_neg h]
      exact (List.Perm.cons y ih).trans (List.Perm.swap x y ys)

theorem sortByLE_perm {α : Type} (le : α → α → Bool) (l : List α) :
    (sortByLE le l).Perm l := by
  induction l with
  | nil => exact List.Perm.refl _
  | cons x xs ih =>
    unfold sortByLE
    exact (insertLE_perm le x (sortByLE le xs)).trans (List.Perm.cons x ih)

theorem jadd_right_comm (a x y : JNum) : jadd (jadd a x) y = jadd (jadd a y) x := by
  cases a <;> cases x <;> cases y <;> simp [jadd]
  ring

theorem foldl_condAdd_perm (fl : Rat) {l1 l2 : List (String × JNum)} (h : l1.Perm l2) :
    ∀ init, l1.foldl (fun a t => if jltR t.2 fl then a else jadd a t.2) init
      = l2.foldl (fun a t => if jltR t.2 fl then a else jadd a t.2) init := by
  induction h with
  | nil => intro init; rfl
  | cons x _ ih =>
    intro init
    simp only [List.foldl_cons]
    exact ih _
  | swap x y l =>
    intro init
    simp only [List.foldl_cons]
    congr 1
    by_cases hx : jltR x.2 fl <;> by_cases hy : jltR y.2 fl <;>
      simp [hx, hy, jadd_right_comm]
  | trans _ _ ih1 ih2 =>
    intro init
    rw [ih1, ih2]

theorem foldl_condAdd_nosup (fl : Rat) (ts : List (String × JNum))
    (h : ∀ t ∈ ts, jltR t.2 fl = false) :
    ∀ init, ts.foldl (fun a t => if jltR t.2 fl then a else jadd a t.2) init
      = ts.foldl (fun a t => jadd a t.2) init := by
  induction ts with
  | nil => intro init; rfl
  | cons t ts ih =>
    intro init
    have ht : jltR t.2 fl = false := h t (List.mem_cons_self t ts)
    rw [List.foldl_cons, List.foldl_cons, if_neg (by simp [ht])]
    exact ih (fun x hx => h x (by simp [hx])) _

/-- The fueled hierarchical walk does not depend on the fuel once the fuel
exceeds the distance between the entry and the longest stored path, which is
why reportOn can safely fix the fuel at one more than the longest path: the
zero-fuel branch is unreachable from any actual call. -/
theorem reportOnAux_fuel_irrel (fl : Rat) (tA : Table) (es : List Path) (M : Nat)
    (hM : ∀ e ∈ es, e.length ≤ M) :
    ∀ (f1 f2 level : Nat) (entry : Path),
      M - entry.length < f1 → M - entry.length < f2 →
      reportOnAux fl tA es f1 level entry = reportOnAux fl tA es f2 level entry := by
  intro f1
  induction f1 with
  | zero =>
    intro f2 level entry h1 h2
    omega
  | succ f1 ih =>
    intro f2 level entry h1 h2
    cases f2 with
    | zero => omega
    | succ f2 =>
      rw [reportOnAux, reportOnAux]
      by_cases hc : hasChildren es entry = true
      · rw [if_pos hc, if_pos hc]
        by_cases hf : jltR (tget tA entry) fl = true
        · rw [if_pos hf, if_pos hf]
        · rw [if_neg hf, if_neg hf]
          congr 1
          apply congrArg List.flatten
          apply List.map_congr_left
          intro child hchild
          have hch := List.mem_filter.1 hchild
          have hlen : child.length = entry.length + 1 := by
            have := hch.2
            simp only [isChild, Bool.and_eq_true, beq_iff_eq] at this
            exact this.1
          have hchM : child.length ≤ M := hM child hch.1
          exact ih f2 (level + 1) child (by omega) (by omega)
      · rw [if_neg hc, if_neg hc]

theorem uniqFirstAux_nodup : ∀ (l seen : List String), (uniqFirstAux seen l).Nodup := by
  intro l
  induction l with
  | nil =>
    intro seen
    simp [uniqFirstAux]
  | cons y ys ih =>
    intro seen
    by_cases hy : y ∈ seen
    · rw [uniqFirstAux, if_pos hy]
      exact ih seen
    · rw [uniqFirstAux, if_neg hy]
      refine List.nodup_cons.2 ⟨?_, ih (y :: seen)⟩
      intro hc
      exact ((mem_uniqFirstAux y ys (y :: seen)).1 hc).2 (List.mem_cons_self _ _)

theorem uniqFirst_nodup (l : List String) : (uniqFirst l).Nodup :=
  uniqFirstAux_nodup l []

theorem filter_and_left (l : List Path) (p q : Path → Bool) :
    l.filter (fun e => p e && q e) = (l.filter p).filter q := by
  rw [List.filter_filter]
  apply List.filter_congr
  intro e _
  rw [Bool.and_comm]

/-- Claim C8 (corrected): when no per-leaf-name total falls below the filter
threshold (so nothing is suppressed) and the snapshot is well formed (nodup
nonempty keys, every depth-two-or-more path has its parent stored, numeric
values, and no stored key collides with an injected other-key), the grand
total printed by the flat view over the reconstructed table equals the sum of
the accumulated times of all top-level (depth-1) stored paths exactly. -/
theorem claim8_leaf_total_eq_top_total (st : ReportState) (fl : Rat)
    (hnd : (keysOf st.bucketTimes).Nodup)
    (hsome : ∀ kv ∈ st.bucketTimes, kv.2.isSome = true)
    (hne : ∀ q ∈ keysOf st.bucketTimes, q ≠ [])
    (hclosed : ∀ p ∈ keysOf st.bucketTimes, 2 ≤ p.length →
        p.take (p.length - 1) ∈ keysOf st.bucketTimes)
    (hfresh : ∀ Q ∈ keysOf st.bucketTimes,
        hasChildren (keysOf st.bucketTimes) Q = true →
        otherPath Q ∉ keysOf st.bucketTimes)
    (hnosup : ∀ n ∈ allLeafs (setupReport st).entries,
        jltR (leafTotal (setupReport st).bucketTimesAndOther (setupReport st).entries n) fl
          = false) :
    grandTotal fl (setupReport st).bucketTimesAndOther (setupReport st).entries
      = (topLevelEntries (keysOf st.bucketTimes)).foldl
          (fun acc e => jadd acc (tget st.bucketTimes e)) (some 0) := by
  obtain ⟨hbt, hes, hpres, hother⟩ := setupReport_spec st hnd hfresh
  have hsub : ∀ Q ∈ (keysOf st.bucketTimes).filter
      (fun e => hasChildren (keysOf st.bucketTimes) e), Q ∈ keysOf st.bucketTimes :=
    fun Q hQ => List.mem_of_mem_filter hQ
  have hpar : ∀ Q ∈ (keysOf st.bucketTimes).filter
      (fun e => hasChildren (keysOf st.bucketTimes) e),
      hasChildren (keysOf st.bucketTimes) Q = true :=
    fun Q hQ => by simpa using (List.mem_filter.1 hQ).2
  -- decomposition of the leaf set of the reconstructed entries
  have hLdecomp : (setupReport st).entries.filter
        (fun e => isLeaf (setupReport st).entries e)
      = (keysOf st.bucketTimes).filter (fun e => isLeaf (keysOf st.bucketTimes) e)
        ++ ((keysOf st.bucketTimes).filter
              (fun e => hasChildren (keysOf st.bucketTimes) e)).map otherPath := by
    rw [hes]
    exact leaves_append_decomp _ _ hsub hpar hne hclosed hfresh
  -- every leaf of the reconstructed table has a numeric time
  have hsome_tA : ∀ e ∈ (setupReport st).entries.filter
      (fun e => isLeaf (setupReport st).entries e),
      (tget (setupReport st).bucketTimesAndOther e).isSome = true := by
    intro e he
    rw [hLdecomp] at he
    rcases List.mem_append.1 he with h | h
    · have he0 : e ∈ keysOf st.bucketTimes := List.mem_of_mem_filter h
      rw [hpres e he0]
      exact tget_isSome_of_mem _ e hsome he0
    · rcases List.mem_map.1 h with ⟨Q, hQ, rfl⟩
      rw [hother Q hQ]
      obtain ⟨a, ha⟩ := Option.isSome_iff_exists.1
        (tget_isSome_of_mem _ Q hsome (hsub Q hQ))
      obtain ⟨b, hb⟩ := childTotal_isSome _ Q hsome
      rw [ha, hb]
      rfl
  -- each leafTotal evaluates to the sum over the leaves with that name
  have hleafTotal_eq : ∀ n, leafTotal (setupReport st).bucketTimesAndOther
        (setupReport st).entries n
      = some (0 + ((((setupReport st).entries.filter
            (fun e => isLeaf (setupReport st).entries e)).filter
              (fun e => entryNameStr e == n)).map
            (fun e => (tget (setupReport st).bucketTimesAndOther e).getD 0)).sum) := by
    intro n
    unfold leafTotal
    rw [filter_and_left]
    exact foldl_jadd_eq_sum _ _ (fun e he => hsome_tA e (List.mem_of_mem_filter he)) 0
  -- the left side reduces to the sum of all leaf times
  have hleft : grandTotal fl (setupReport st).bucketTimesAndOther (setupReport st).entries
      = some (0 + (((setupReport st).entries.filter
            (fun e => isLeaf (setupReport st).entries e)).map
          (fun e => (tget (setupReport st).bucketTimesAndOther e).getD 0)).sum) := by
    unfold grandTotal
    rw [totalsFold_snd_eq]
    unfold totalsSort
    rw [foldl_condAdd_perm fl (sortByLE_perm _ _) (some 0)]
    rw [foldl_condAdd_nosup fl _ ?_ (some 0)]
    · rw [List.foldl_map]
      simp only []
      have hAllSome : ∀ n ∈ allLeafs (setupReport st).entries,
          (leafTotal (setupReport st).bucketTimesAndOther
            (setupReport st).entries n).isSome = true := by
        intro n _
        rw [hleafTotal_eq n]
        rfl
      rw [foldl_jadd_eq_sum _ _ hAllSome 0]
      have hpointwise : (allLeafs (setupReport st).entries).map
            (fun n => (leafTotal (setupReport st).bucketTimesAndOther
              (setupReport st).entries n).getD 0)
          = (allLeafs (setupReport st).entries).map
            (fun n => ((((setupReport st).entries.filter
                  (fun e => isLeaf (setupReport st).entries e)).filter
                    (fun e => entryNameStr e == n)).map
                  (fun e => (tget (setupReport st).bucketTimesAndOther e).getD 0)).sum) := by
        apply List.map_congr_left
        intro n _
        rw [hleafTotal_eq n]
        simp
      rw [hpointwise]
      rw [sum_group_by_name (fun e => (tget (setupReport st).bucketTimesAndOther e).getD 0)
        (allLeafs (setupReport st).entries)
        ((setupReport st).entries.filter (fun e => isLeaf (setupReport st).entries e))
        (uniqFirst_nodup _)
        (fun e he => (mem_uniqFirst _ _).2 (List.mem_map_of_mem _ he))]
    · intro t ht
      rcases List.mem_map.1 ht with ⟨n, hn, rfl⟩
      exact hnosup n hn
  -- values of the two leaf families
  have hval0 : ∀ e ∈ (keysOf st.bucketTimes).filter
      (fun e => isLeaf (keysOf st.bucketTimes) e),
      (tget (setupReport st).bucketTimesAndOther e).getD 0
        = (tget st.bucketTimes e).getD 0 := by
    intro e he
    rw [hpres e (List.mem_of_mem_filter he)]
  have hvalO : ∀ Q ∈ (keysOf st.bucketTimes).filter
      (fun e => hasChildren (keysOf st.bucketTimes) e),
      (tget (setupReport st).bucketTimesAndOther (otherPath Q)).getD 0
        = (tget st.bucketTimes Q).getD 0
          - ((childrenOf (keysOf st.bucketTimes) Q).map
              (fun c => (tget st.bucketTimes c).getD 0)).sum := by
    intro Q hQ
    obtain ⟨a, ha⟩ := Option.isSome_iff_exists.1
      (tget_isSome_of_mem _ Q hsome (hsub Q hQ))
    have hct : childTotal st.bucketTimes (keysOf st.bucketTimes) Q
        = some (0 + ((childrenOf (keysOf st.bucketTimes) Q).map
            (fun c => (tget st.bucketTimes c).getD 0)).sum) := by
      unfold childTotal
      exact foldl_jadd_eq_sum _ _
        (fun c hc => tget_isSome_of_mem _ c hsome (List.mem_of_mem_filter hc)) 0
    rw [hother Q hQ, ha, hct]
    simp [jsub]
  -- assemble the sums
  have hsum1 : (((setupReport st).entries.filter
        (fun e => isLeaf (setupReport st).entries e)).map
      (fun e => (tget (setupReport st).bucketTimesAndOther e).getD 0)).sum
      = (((keysOf st.bucketTimes).filter
            (fun e => isLeaf (keysOf st.bucketTimes) e)).map
          (fun e => (tget st.bucketTimes e).getD 0)).sum
        + ((((keysOf st.bucketTimes).filter
              (fun e => hasChildren (keysOf st.bucketTimes) e)).map
            (fun Q => (tget st.bucketTimes Q).getD 0
              - ((childrenOf (keysOf st.bucketTimes) Q).map
                  (fun c => (tget st.bucketTimes c).getD 0)).sum)).sum) := by
    rw [hLdecomp, List.map_append, List.sum_append]
    congr 1
    · apply congrArg
      exact List.map_congr_left hval0
    · rw [List.map_map]
      apply congrArg
      apply List.map_congr_left
      intro Q hQ
      exact hvalO Q hQ
  have hsplit1 : ((keysOf st.bucketTimes).map
        (fun e => (tget st.bucketTimes e).getD 0)).sum
      = (((keysOf st.bucketTimes).filter
            (fun e => hasChildren (keysOf st.bucketTimes) e)).map
          (fun e => (tget st.bucketTimes e).getD 0)).sum
        + (((keysOf st.bucketTimes).filter
              (fun e => isLeaf (keysOf st.bucketTimes) e)).map
            (fun e => (tget st.bucketTimes e).getD 0)).sum := by
    exact sum_filter_split _ _ _
  have hdouble : ((((keysOf st.bucketTimes).filter
          (fun e => hasChildren (keysOf st.bucketTimes) e)).map
        (fun Q => ((childrenOf (keysOf st.bucketTimes) Q).map
            (fun c => (tget st.bucketTimes c).getD 0)).sum)).sum)
      = (((keysOf st.bucketTimes).filter (fun c => decide (2 ≤ c.length))).map
          (fun c => (tget st.bucketTimes c).getD 0)).sum :=
    sum_child_totals _ hnd hne hclosed _
  have hsplit2 : ((keysOf st.bucketTimes).map
        (fun e => (tget st.bucketTimes e).getD 0)).sum
      = (((keysOf st.bucketTimes).filter (fun c => decide (2 ≤ c.length))).map
          (fun c => (tget st.bucketTimes c).getD 0)).sum
        + ((topLevelEntries (keysOf st.bucketTimes)).map
            (fun e => (tget st.bucketTimes e).getD 0)).sum := by
    have hstep := sum_filter_split (keysOf st.bucketTimes)
      (fun c => decide (2 ≤ c.length)) (fun e => (tget st.bucketTimes e).getD 0)
    have hfiltereq : (keysOf st.bucketTimes).filter (fun x => !decide (2 ≤ x.length))
        = topLevelEntries (keysOf st.bucketTimes) := by
      unfold topLevelEntries
      apply List.filter_congr
      intro c hc
      have hcne := hne c hc
      have h1 : 1 ≤ c.length := by
        cases hcc : c with
        | nil => exact absurd hcc hcne
        | cons a l => simp [hcc]
      by_cases h2 : 2 ≤ c.length
      · have h3 : ¬ c.length = 1 := by omega
        simp [h2, isTopLevelEntry, h3]
      · have h3 : c.length = 1 := by omega
        simp [h2, isTopLevelEntry, h3]
    rw [hstep, hfiltereq]
  have hrhs : (topLevelEntries (keysOf st.bucketTimes)).foldl
        (fun acc e => jadd acc (tget st.bucketTimes e)) (some 0)
      = some (0 + ((topLevelEntries (keysOf st.bucketTimes)).map
          (fun e => (tget st.bucketTimes e).getD 0)).sum) :=
    foldl_jadd_eq_sum _ _
      (fun e he => tget_isSome_of_mem _ e hsome (List.mem_of_mem_filter he)) 0
  rw [hleft, hrhs]
  congr 1
  rw [hsum1, sum_map_sub]
  rw [hdouble] at *
  linarith [hsplit1, hsplit2, hdouble]

/-- Witness for claim C8 at a concrete one-leaf snapshot. -/
theorem claim8_witness :
    ((keysOf [(["A"], (some 100 : JNum))]).Nodup
      ∧ (∀ kv ∈ [(["A"], (some 100 : JNum))], kv.2.isSome = true)
      ∧ (∀ q ∈ keysOf [(["A"], (some 100 : JNum))], q ≠ [])
      ∧ (∀ p ∈ keysOf [(["A"], (some 100 : JNum))], 2 ≤ p.length →
          p.take (p.length - 1) ∈ keysOf [(["A"], (some 100 : JNum))])
      ∧ (∀ Q ∈ keysOf [(["A"], (some 100 : JNum))],
          hasChildren (keysOf [(["A"], (some 100 : JNum))]) Q = true →
          otherPath Q ∉ keysOf [(["A"], (some 100 : JNum))])
      ∧ (∀ n ∈ allLeafs (setupReport ⟨[(["A"], some 100)], [], []⟩).entries,
          jltR (leafTotal (setupReport ⟨[(["A"], some 100)], [], []⟩).bucketTimesAndOther
            (setupReport ⟨[(["A"], some 100)], [], []⟩).entries n) 10 = false))
    ∧ grandTotal 10 (setupReport ⟨[(["A"], some 100)], [], []⟩).bucketTimesAndOther
        (setupReport ⟨[(["A"], some 100)], [], []⟩).entries
      = (topLevelEntries (keysOf [(["A"], (some 100 : JNum))])).foldl
          (fun acc e => jadd acc (tget [(["A"], (some 100 : JNum))] e)) (some 0) := by
  have hnosup : ∀ n ∈ allLeafs (setupReport ⟨[(["A"], some 100)], [], []⟩).entries,
      jltR (leafTotal (setupReport ⟨[(["A"], some 100)], [], []⟩).bucketTimesAndOther
        (setupReport ⟨[(["A"], some 100)], [], []⟩).entries n) 10 = false := by
    intro n hn
    have hAll : allLeafs (setupReport ⟨[(["A"], some 100)], [], []⟩).entries = ["A"] := rfl
    rw [hAll] at hn
    have hn' : n = "A" := by simpa using hn
    subst hn'
    have hlt : leafTotal (setupReport ⟨[(["A"], some 100)], [], []⟩).bucketTimesAndOther
        (setupReport ⟨[(["A"], some 100)], [], []⟩).entries "A" = some ((0 : Rat) + 100) := rfl
    rw [hlt]
    simp only [jltR, decide_eq_false_iff_not]
    norm_num
  exact ⟨⟨by decide, by decide, by decide, by decide, by decide, hnosup⟩,
    claim8_leaf_total_eq_top_total ⟨[(["A"], some 100)], [], []⟩ 10
      (by decide) (by decide) (by decide) (by decide) (by decide) hnosup⟩

/-- Counterexample for claim C8 as stated: with filter 10 on the snapshot
holding A at 100 and A.B at 5, the injected other-A entry gets 95, the leaf
B is suppressed, and the printed grand total is 95, while the sum of the
non-suppressed top-level accumulated times is 100; the two sides differ even
though the suppressed entries are excluded from both. -/
theorem claim8_counterexample :
    grandTotal 10
        (setupReport ⟨[(["A"], some 100), (["A", "B"], some 5)], [], []⟩).bucketTimesAndOther
        (setupReport ⟨[(["A"], some 100), (["A", "B"], some 5)], [], []⟩).entries
      = some 95
    ∧ ((topLevelEntries (keysOf [(["A"], (some 100 : JNum)), (["A", "B"], some 5)])).filter
          (fun e => !(jltR (tget [(["A"], (some 100 : JNum)), (["A", "B"], some 5)] e) 10))).foldl
        (fun acc e => jadd acc (tget [(["A"], (some 100 : JNum)), (["A", "B"], some 5)] e))
        (some 0)
      = some 100
    ∧ (some (95 : Rat) : JNum) ≠ some 100 := by
  have h1 : jsub (some 100) (jadd (some (0 : Rat)) (some 5)) = some 95 := by
    simp only [jadd, jsub]
    norm_num
  have hsetup : setupReport ⟨[(["A"], some 100), (["A", "B"], some 5)], [], []⟩
      = ⟨[(["A"], some 100), (["A", "B"], some 5)],
          [(["A"], some 100), (["A", "B"], some 5),
            (["A", "other A"], jsub (some 100) (jadd (some 0) (some 5)))],
          [["A"], ["A", "B"], ["A", "other A"]]⟩ := rfl
  rw [h1] at hsetup
  refine ⟨?_, ?_, by decide⟩
  · rw [hsetup]
    have hts : (allLeafs [["A"], ["A", "B"], ["A", "other A"]]).map
          (fun leaf => (leaf, leafTotal
            [(["A"], (some 100 : JNum)), (["A", "B"], some 5), (["A", "other A"], some 95)]
            [["A"], ["A", "B"], ["A", "other A"]] leaf))
        = [("B", some ((0 : Rat) + 5)), ("other A", some ((0 : Rat) + 95))] := rfl
    have hts2 : [("B", some ((0 : Rat) + 5)), ("other A", some ((0 : Rat) + 95))]
        = [("B", (some 5 : JNum)), ("other A", some 95)] := by norm_num
    have hfold : (totalsFold 10 (totalsSort [("B", (some 5 : JNum)), ("other A", some 95)])).2
        = some ((0 : Rat) + 95) := rfl
    show grandTotal 10
        [(["A"], (some 100 : JNum)), (["A", "B"], some 5), (["A", "other A"], some 95)]
        [["A"], ["A", "B"], ["A", "other A"]] = some 95
    unfold grandTotal
    rw [hts, hts2, hfold]
    norm_num
  · have hfold2 : ((topLevelEntries
          (keysOf [(["A"], (some 100 : JNum)), (["A", "B"], some 5)])).filter
          (fun e => !(jltR (tget [(["A"], (some 100 : JNum)), (["A", "B"], some 5)] e) 10))).foldl
        (fun acc e => jadd acc (tget [(["A"], (some 100 : JNum)), (["A", "B"], some 5)] e))
        (some 0) = some ((0 : Rat) + 100) := rfl
    rw [hfold2]
    norm_num

end Meteor
